import Mathlib

/-!
Shallow embedding of the WebRTC video signaling server (src/api/index.ts).

The server keeps two in-memory registries:
  * `rooms : Map<string, Set<string>>`  — roomId to set of socket ids;
  * `peers : Map<string, PeerInfo>`     — socket id to peer profile.
In addition, the socket.io transport keeps its own room membership
(`socket.join(roomId)` / implicit leave on transport disconnect), which is
what `socket.to(roomId).emit(...)` broadcasts over.  We model it as a third
table `ioRooms`.

JS `Map` and `Set` are modelled as association lists / duplicate-free lists
with operations mirroring `Map.get/set/delete/has` and `Set.add/delete`.
Event handlers become pure functions `ServerState → ... → ServerState × List Send`
where `Send` records one `emit` directive (target socket id and message).
-/

namespace VideoServer

/-- Peer profile, mirroring `interface PeerInfo` in the source. -/
structure PeerInfo where
  socketId : String
  username : String
  roomId : String
deriving Repr, DecidableEq

/-- A JS `Map<string, α>` as an association list (insertion order kept). -/
abbrev Table (α : Type) := List (String × α)

/-- `Map.get`: first binding of the key, if any. -/
def mfind {α : Type} (k : String) : Table α → Option α
  | [] => none
  | (k', v) :: rest => if k' = k then some v else mfind k rest

/-- `Map.set`: overwrite the binding in place if the key is present,
otherwise append a fresh binding. -/
def mset {α : Type} (k : String) (v : α) : Table α → Table α
  | [] => [(k, v)]
  | (k', w) :: rest => if k' = k then (k, v) :: rest else (k', w) :: mset k v rest

/-- `Map.delete`: drop the binding of the key. -/
def merase {α : Type} (k : String) : Table α → Table α
  | [] => []
  | (k', w) :: rest => if k' = k then merase k rest else (k', w) :: merase k rest

/-- `Set.add`: append unless already present. -/
def sadd (x : String) (s : List String) : List String :=
  if x ∈ s then s else s ++ [x]

/-- `Set.delete`: remove the element. -/
def sdel (x : String) : List String → List String
  | [] => []
  | y :: rest => if y = x then sdel x rest else y :: sdel x rest

/-- Outbound socket.io messages emitted by the server (§6 of the spec). -/
inductive Msg where
  | userConnected (userId username : String)
  | userDisconnected (userId : String)
  | offer (payload fromId username : String)
  | answer (payload fromId username : String)
  | iceCandidate (payload fromId : String)
  | screenShareStarted (userId username : String)
  | screenShareStopped (userId : String)
deriving Repr, DecidableEq

/-- One `emit` directive: which socket receives which message. -/
structure Send where
  target : String
  msg : Msg
deriving Repr, DecidableEq

/-- The server's whole observable state between event handlers. -/
structure ServerState where
  rooms : Table (List String)
  peers : Table PeerInfo
  ioRooms : Table (List String)
deriving Repr, DecidableEq

/-- Members of a room in the `rooms` registry (empty if the room is absent). -/
def membersOf (s : ServerState) (r : String) : List String :=
  (mfind r s.rooms).getD []

/-- Members of a socket.io adapter room (empty if absent). -/
def ioMembersOf (s : ServerState) (r : String) : List String :=
  (mfind r s.ioRooms).getD []

/-- `socket.to(roomId).emit(m)`: one copy of `m` to every member of the
adapter room except the sending socket. -/
def sockTo (s : ServerState) (r c : String) (m : Msg) : List Send :=
  (sdel c (ioMembersOf s r)).map (fun x => ⟨x, m⟩)

/-- The `room.forEach` loop of the `join-room` handler: for every existing
member with a peer record, notify the joiner about the member and the member
about the joiner. -/
def joinMsgs (peers1 : Table PeerInfo) (c username : String) : List String → List Send
  | [] => []
  | pid :: rest =>
    (match mfind pid peers1 with
     | some p => [⟨c, Msg.userConnected pid p.username⟩, ⟨pid, Msg.userConnected c username⟩]
     | none => []) ++ joinMsgs peers1 c username rest

/-- The `join-room` handler (src/api/index.ts lines 89–123): overwrite the
peer record, create the room if absent, notify existing members, add the
joiner to the room set and to the adapter room. -/
def joinRoom (s : ServerState) (c roomId username : String) : ServerState × List Send :=
  let peers1 := mset c ⟨c, username, roomId⟩ s.peers
  let rooms1 := if (mfind roomId s.rooms).isSome then s.rooms else mset roomId [] s.rooms
  let room := (mfind roomId rooms1).getD []
  let msgs := joinMsgs peers1 c username room
  let rooms2 := mset roomId (sadd c room) rooms1
  let io1 := mset roomId (sadd c ((mfind roomId s.ioRooms).getD [])) s.ioRooms
  ({ rooms := rooms2, peers := peers1, ioRooms := io1 }, msgs)

/-- `handleDisconnect` (src/api/index.ts lines 247–270): if the socket has a
peer record, remove it from its record's room, broadcast `user-disconnected`
to the rest of that adapter room, delete the room if now empty, and delete
the peer record.  Touches `rooms`/`peers` only; the adapter state is managed
by the transport, not by this function. -/
def handleDisconnect (s : ServerState) (c : String) : ServerState × List Send :=
  match mfind c s.peers with
  | none => (s, [])
  | some p =>
    match mfind p.roomId s.rooms with
    | none => ({ s with peers := merase c s.peers }, [])
    | some room =>
      let room1 := sdel c room
      let msgs := sockTo s p.roomId c (Msg.userDisconnected c)
      let rooms1 := if room1 = [] then merase p.roomId s.rooms else mset p.roomId room1 s.rooms
      ({ s with rooms := rooms1, peers := merase c s.peers }, msgs)

/-- Transport disconnect removes the socket from every adapter room. -/
def stripIo (c : String) (t : Table (List String)) : Table (List String) :=
  t.map (fun e => (e.1, sdel c e.2))

/-- The incoming events of §6, each tagged with the connection id the
transport delivers it on. -/
inductive Event where
  | joinRoom (c roomId username : String)
  | leaveRoom (c : String)
  | disconnect (c : String)
  | offer (c payload toId : String)
  | answer (c payload toId : String)
  | iceCandidate (c payload toId : String)
  | startScreenShare (c roomId : String)
  | stopScreenShare (c roomId : String)
deriving Repr, DecidableEq

/-- One complete event-handler execution. -/
def step (s : ServerState) (e : Event) : ServerState × List Send :=
  match e with
  | .joinRoom c r u => joinRoom s c r u
  | .leaveRoom c => handleDisconnect s c
  | .disconnect c =>
    let r := handleDisconnect s c
    ({ r.1 with ioRooms := stripIo c r.1.ioRooms }, r.2)
  | .offer c payload toId =>
    match mfind c s.peers with
    | some p => (s, [⟨toId, Msg.offer payload c p.username⟩])
    | none => (s, [])
  | .answer c payload toId =>
    match mfind c s.peers with
    | some p => (s, [⟨toId, Msg.answer payload c p.username⟩])
    | none => (s, [])
  | .iceCandidate c payload toId =>
    (s, [⟨toId, Msg.iceCandidate payload c⟩])
  | .startScreenShare c r =>
    match mfind c s.peers with
    | some p => (s, sockTo s r c (Msg.screenShareStarted c p.username))
    | none => (s, [])
  | .stopScreenShare c r =>
    match mfind c s.peers with
    | some _ => (s, sockTo s r c (Msg.screenShareStopped c))
    | none => (s, [])

/-- The state at process start: all registries empty. -/
def initState : ServerState := ⟨[], [], []⟩

/-- Run a sequence of events from a given state, keeping only the state. -/
def runFrom (s : ServerState) : List Event → ServerState
  | [] => s
  | e :: es => runFrom (step s e).1 es

/-- State reached from the initial state by a sequence of events. -/
def run (evs : List Event) : ServerState := runFrom initState evs

/-- `rooms.size`, as reported by the `/health` endpoint. -/
def roomCount (s : ServerState) : Nat := s.rooms.length

/-- `totalPeers` of the `/health` endpoint: sum of member-set sizes. -/
def totalPeers (s : ServerState) : Nat := (s.rooms.map (fun e => e.2.length)).sum

/-- In state `s`, the event is either not a `join-room`, or a `join-room`
issued by a connection that has no current peer record. -/
def joinOk (s : ServerState) : Event → Bool
  | .joinRoom c _ _ => (mfind c s.peers).isNone
  | _ => true

/-- An event trace is disciplined when every `join-room` is issued by a
connection that has no current peer record (no re-join while joined). -/
def disciplinedFrom (s : ServerState) : List Event → Bool
  | [] => true
  | e :: es => joinOk s e && disciplinedFrom (step s e).1 es

/-- Forward registry consistency: every peer record's connection id is in
the member set of the room its record names. -/
def ForwardInv (s : ServerState) : Prop :=
  ∀ c p, mfind c s.peers = some p → c ∈ membersOf s p.roomId

/-- Reverse registry consistency: every member of every registered room has
a peer record naming that room. -/
def ReverseInv (s : ServerState) : Prop :=
  ∀ r l, mfind r s.rooms = some l → ∀ c, c ∈ l → ∃ p, mfind c s.peers = some p ∧ p.roomId = r

/-- Mutual consistency of the two registries (§3 invariant of the spec). -/
def Consistent (s : ServerState) : Prop := ForwardInv s ∧ ReverseInv s

/-- Every peer record's connection id is in the adapter room its record
names (sockets join the adapter room when they join the registry room). -/
def IoInv (s : ServerState) : Prop :=
  ∀ c p, mfind c s.peers = some p → c ∈ ioMembersOf s p.roomId

/-- Structural well-formedness: room keys are distinct, registered member
sets are duplicate-free and non-empty, adapter member sets duplicate-free. -/
structure WF (s : ServerState) : Prop where
  roomsKeys : (s.rooms.map Prod.fst).Nodup
  roomsVals : ∀ r l, mfind r s.rooms = some l → l.Nodup ∧ l ≠ []
  ioVals : ∀ r l, mfind r s.ioRooms = some l → l.Nodup

/-! ### Association-list (JS Map) lemmas -/

theorem mfind_mset_self {α : Type} (k : String) (v : α) (t : Table α) :
    mfind k (mset k v t) = some v := by
  induction t with
  | nil => simp [mset, mfind]
  | cons e rest ih =>
    obtain ⟨a, w⟩ := e
    by_cases ha : a = k
    · simp [mset, ha, mfind]
    · simp only [mset, if_neg ha, mfind, if_neg ha]
      exact ih

theorem mfind_mset_ne {α : Type} {k k' : String} (v : α) (t : Table α)
    (h : k' ≠ k) : mfind k' (mset k v t) = mfind k' t := by
  induction t with
  | nil => simp [mset, mfind, h.symm]
  | cons e rest ih =>
    obtain ⟨a, w⟩ := e
    by_cases ha : a = k
    · subst ha
      simp only [mset, if_pos rfl, mfind, if_neg (fun hh : a = k' => h hh.symm)]
    · simp only [mset, if_neg ha, mfind]
      split
      · rfl
      · exact ih

theorem mfind_merase_self {α : Type} (k : String) (t : Table α) :
    mfind k (merase k t) = none := by
  induction t with
  | nil => rfl
  | cons e rest ih =>
    obtain ⟨a, w⟩ := e
    by_cases ha : a = k
    · simpa [merase, ha] using ih
    · simp only [merase, if_neg ha, mfind, if_neg ha]
      exact ih

theorem mfind_merase_ne {α : Type} {k k' : String} (t : Table α)
    (h : k' ≠ k) : mfind k' (merase k t) = mfind k' t := by
  induction t with
  | nil => rfl
  | cons e rest ih =>
    obtain ⟨a, w⟩ := e
    by_cases ha : a = k
    · subst ha
      simp only [merase, if_pos rfl, mfind, if_neg (fun hh : a = k' => h hh.symm)]
      exact ih
    · simp only [merase, if_neg ha, mfind]
      split
      · rfl
      · exact ih

theorem mfind_eq_none_iff {α : Type} {k : String} {t : Table α} :
    mfind k t = none ↔ k ∉ t.map Prod.fst := by
  induction t with
  | nil => simp [mfind]
  | cons e rest ih =>
    obtain ⟨a, w⟩ := e
    by_cases ha : a = k
    · subst ha
      simp [mfind]
    · simp only [mfind, if_neg ha, List.map_cons, List.mem_cons, ih]
      constructor
      · rintro hk (rfl | hmem)
        · exact ha rfl
        · exact hk hmem
      · intro hk hmem
        exact hk (Or.inr hmem)

theorem merase_of_none {α : Type} {k : String} {t : Table α}
    (h : mfind k t = none) : merase k t = t := by
  induction t with
  | nil => rfl
  | cons e rest ih =>
    obtain ⟨a, w⟩ := e
    simp only [mfind] at h
    split at h
    · exact absurd h (by simp)
    · next ha =>
      simp only [merase, if_neg ha]
      rw [ih h]

theorem keys_merase_sublist {α : Type} (k : String) (t : Table α) :
    List.Sublist ((merase k t).map Prod.fst) (t.map Prod.fst) := by
  induction t with
  | nil => exact List.Sublist.refl _
  | cons e rest ih =>
    obtain ⟨a, w⟩ := e
    by_cases ha : a = k
    · simp only [merase, if_pos ha, List.map_cons]
      exact ih.cons a
    · simp only [merase, if_neg ha, List.map_cons]
      exact ih.cons₂ a

theorem nodup_keys_merase {α : Type} (k : String) {t : Table α}
    (h : (t.map Prod.fst).Nodup) : ((merase k t).map Prod.fst).Nodup :=
  (keys_merase_sublist k t).nodup h

theorem keys_mset_of_some {α : Type} {k : String} {t : Table α} {w : α} (v : α)
    (h : mfind k t = some w) : (mset k v t).map Prod.fst = t.map Prod.fst := by
  induction t with
  | nil => simp [mfind] at h
  | cons e rest ih =>
    obtain ⟨a, u⟩ := e
    simp only [mfind] at h
    by_cases ha : a = k
    · subst ha
      simp [mset]
    · rw [if_neg ha] at h
      simp only [mset, if_neg ha, List.map_cons]
      rw [ih h]

theorem keys_mset_of_none {α : Type} {k : String} {t : Table α} (v : α)
    (h : mfind k t = none) : (mset k v t).map Prod.fst = t.map Prod.fst ++ [k] := by
  induction t with
  | nil => simp [mset]
  | cons e rest ih =>
    obtain ⟨a, u⟩ := e
    simp only [mfind] at h
    split at h
    · exact absurd h (by simp)
    · next ha =>
      simp only [mset, if_neg ha, List.map_cons, List.cons_append]
      rw [ih h]

theorem nodup_keys_mset {α : Type} {k : String} {t : Table α} (v : α)
    (h : (t.map Prod.fst).Nodup) : ((mset k v t).map Prod.fst).Nodup := by
  cases hk : mfind k t with
  | some w => rw [keys_mset_of_some v hk]; exact h
  | none =>
    rw [keys_mset_of_none v hk]
    simp only [List.nodup_append, List.nodup_cons, List.not_mem_nil, not_false_iff,
      List.nodup_nil, and_true, true_and]
    refine ⟨h, ?_⟩
    intro a ha hb
    simp only [List.mem_singleton] at hb
    subst hb
    exact (mfind_eq_none_iff.mp hk) ha

theorem length_merase {α : Type} {k : String} {t : Table α} {v : α}
    (hnd : (t.map Prod.fst).Nodup) (h : mfind k t = some v) :
    t.length = (merase k t).length + 1 := by
  induction t with
  | nil => simp [mfind] at h
  | cons e rest ih =>
    obtain ⟨a, w⟩ := e
    simp only [List.map_cons, List.nodup_cons] at hnd
    simp only [mfind] at h
    by_cases ha : a = k
    · subst ha
      have hrest : mfind a rest = none := mfind_eq_none_iff.mpr hnd.1
      simp [merase, merase_of_none hrest]
    · rw [if_neg ha] at h
      simp only [merase, if_neg ha, List.length_cons, Nat.add_right_cancel_iff]
      exact ih hnd.2 h

/-! ### Set lemmas -/

theorem mem_sadd {x y : String} {s : List String} :
    x ∈ sadd y s ↔ x ∈ s ∨ x = y := by
  unfold sadd
  split
  · next h =>
    constructor
    · exact Or.inl
    · rintro (hx | rfl)
      · exact hx
      · exact h
  · simp

theorem nodup_sadd {y : String} {s : List String} (h : s.Nodup) : (sadd y s).Nodup := by
  unfold sadd
  split
  · exact h
  · next hy =>
    simp only [List.nodup_append, List.nodup_cons, List.not_mem_nil, not_false_iff,
      List.nodup_nil, and_true, true_and]
    refine ⟨h, ?_⟩
    intro a ha hb
    simp only [List.mem_singleton] at hb
    subst hb
    exact hy ha

theorem sadd_ne_nil (y : String) (s : List String) : sadd y s ≠ [] := by
  unfold sadd
  split
  · next h => exact List.ne_nil_of_mem h
  · simp

theorem sdel_cons (y a : String) (rest : List String) :
    sdel y (a :: rest) = if a = y then sdel y rest else a :: sdel y rest := rfl

theorem mem_sdel {x y : String} {s : List String} :
    x ∈ sdel y s ↔ x ∈ s ∧ x ≠ y := by
  induction s with
  | nil => simp [sdel]
  | cons a rest ih =>
    rw [sdel_cons]
    by_cases ha : a = y
    · subst ha
      rw [if_pos rfl, ih]
      simp only [List.mem_cons]
      constructor
      · rintro ⟨hx, hxy⟩
        exact ⟨Or.inr hx, hxy⟩
      · rintro ⟨rfl | hx, hxy⟩
        · exact absurd rfl hxy
        · exact ⟨hx, hxy⟩
    · rw [if_neg ha]
      simp only [List.mem_cons, ih]
      constructor
      · rintro (rfl | ⟨hx, hxy⟩)
        · exact ⟨Or.inl rfl, ha⟩
        · exact ⟨Or.inr hx, hxy⟩
      · rintro ⟨rfl | hx, hxy⟩
        · exact Or.inl rfl
        · exact Or.inr ⟨hx, hxy⟩

theorem sdel_sublist (y : String) (s : List String) : List.Sublist (sdel y s) s := by
  induction s with
  | nil => exact List.Sublist.refl _
  | cons a rest ih =>
    rw [sdel_cons]
    by_cases ha : a = y
    · rw [if_pos ha]
      exact ih.cons a
    · rw [if_neg ha]
      exact ih.cons₂ a

theorem nodup_sdel (y : String) {s : List String} (h : s.Nodup) : (sdel y s).Nodup :=
  (sdel_sublist y s).nodup h

theorem sdel_eq_nil_iff {y : String} {s : List String} :
    sdel y s = [] ↔ ∀ x ∈ s, x = y := by
  induction s with
  | nil => simp [sdel]
  | cons a rest ih =>
    by_cases ha : a = y
    · subst ha
      simp [sdel, ih]
    · simp [sdel, if_neg ha, ha]

/-! ### Handler shape lemmas -/

theorem joinRoom_eq (s : ServerState) (c r u : String) :
    joinRoom s c r u =
      ({ rooms := mset r (sadd c (membersOf s r))
            (if (mfind r s.rooms).isSome then s.rooms else mset r [] s.rooms),
         peers := mset c ⟨c, u, r⟩ s.peers,
         ioRooms := mset r (sadd c (ioMembersOf s r)) s.ioRooms },
       joinMsgs (mset c ⟨c, u, r⟩ s.peers) c u (membersOf s r)) := by
  unfold joinRoom membersOf ioMembersOf
  cases h : mfind r s.rooms with
  | some l => simp [h]
  | none => simp [h, mfind_mset_self]

theorem handleDisconnect_of_none {s : ServerState} {c : String}
    (hp : mfind c s.peers = none) : handleDisconnect s c = (s, []) := by
  simp [handleDisconnect, hp]

theorem handleDisconnect_of_some_none {s : ServerState} {c : String} {p : PeerInfo}
    (hp : mfind c s.peers = some p) (hr : mfind p.roomId s.rooms = none) :
    handleDisconnect s c = ({ s with peers := merase c s.peers }, []) := by
  simp [handleDisconnect, hp, hr]

theorem handleDisconnect_of_some_some {s : ServerState} {c : String} {p : PeerInfo}
    {room : List String}
    (hp : mfind c s.peers = some p) (hr : mfind p.roomId s.rooms = some room) :
    handleDisconnect s c =
      ({ s with
          rooms := if sdel c room = [] then merase p.roomId s.rooms
                   else mset p.roomId (sdel c room) s.rooms,
          peers := merase c s.peers },
       sockTo s p.roomId c (Msg.userDisconnected c)) := by
  simp [handleDisconnect, hp, hr]

theorem handleDisconnect_ioRooms (s : ServerState) (c : String) :
    ((handleDisconnect s c).1).ioRooms = s.ioRooms := by
  cases hp : mfind c s.peers with
  | none => rw [handleDisconnect_of_none hp]
  | some p =>
    cases hr : mfind p.roomId s.rooms with
    | none => rw [handleDisconnect_of_some_none hp hr]
    | some room => rw [handleDisconnect_of_some_some hp hr]

theorem handleDisconnect_peers (s : ServerState) (c : String) :
    ((handleDisconnect s c).1).peers = merase c s.peers := by
  cases hp : mfind c s.peers with
  | none => rw [handleDisconnect_of_none hp]; exact (merase_of_none hp).symm
  | some p =>
    cases hr : mfind p.roomId s.rooms with
    | none => rw [handleDisconnect_of_some_none hp hr]
    | some room => rw [handleDisconnect_of_some_some hp hr]

theorem mfind_stripIo (c r : String) (t : Table (List String)) :
    mfind r (stripIo c t) = (mfind r t).map (sdel c) := by
  induction t with
  | nil => rfl
  | cons e rest ih =>
    obtain ⟨a, l⟩ := e
    by_cases ha : a = r
    · simp [stripIo, mfind, ha]
    · simp only [stripIo, List.map_cons, mfind, if_neg ha]
      exact ih

/-! ### Preservation of well-formedness -/

theorem wf_init : WF initState := by
  refine ⟨?_, ?_, ?_⟩
  · simp [initState]
  · intro r l hl
    simp [initState, mfind] at hl
  · intro r l hl
    simp [initState, mfind] at hl

theorem nodup_membersOf {s : ServerState} (h : WF s) (r : String) :
    (membersOf s r).Nodup := by
  unfold membersOf
  cases hm : mfind r s.rooms with
  | some l => simpa using (h.roomsVals r l hm).1
  | none => simp

theorem nodup_ioMembersOf {s : ServerState} (h : WF s) (r : String) :
    (ioMembersOf s r).Nodup := by
  unfold ioMembersOf
  cases hm : mfind r s.ioRooms with
  | some l => simpa using h.ioVals r l hm
  | none => simp

theorem wf_joinRoom {s : ServerState} (c r u : String) (h : WF s) :
    WF ((joinRoom s c r u).1) := by
  rw [joinRoom_eq]
  refine ⟨?_, ?_, ?_⟩
  · apply nodup_keys_mset
    split
    · exact h.roomsKeys
    · exact nodup_keys_mset _ h.roomsKeys
  · intro r' l' hl'
    by_cases hr' : r' = r
    · subst hr'
      rw [mfind_mset_self] at hl'
      simp only [Option.some.injEq] at hl'
      subst hl'
      exact ⟨nodup_sadd (nodup_membersOf h r'), sadd_ne_nil _ _⟩
    · rw [mfind_mset_ne _ _ hr'] at hl'
      split at hl'
      · exact h.roomsVals r' l' hl'
      · rw [mfind_mset_ne _ _ hr'] at hl'
        exact h.roomsVals r' l' hl'
  · intro r' l' hl'
    by_cases hr' : r' = r
    · subst hr'
      rw [mfind_mset_self] at hl'
      simp only [Option.some.injEq] at hl'
      subst hl'
      exact nodup_sadd (nodup_ioMembersOf h r')
    · rw [mfind_mset_ne _ _ hr'] at hl'
      exact h.ioVals r' l' hl'

theorem wf_handleDisconnect {s : ServerState} (c : String) (h : WF s) :
    WF ((handleDisconnect s c).1) := by
  cases hp : mfind c s.peers with
  | none => rw [handleDisconnect_of_none hp]; exact h
  | some p =>
    cases hr : mfind p.roomId s.rooms with
    | none =>
      rw [handleDisconnect_of_some_none hp hr]
      exact ⟨h.roomsKeys, h.roomsVals, h.ioVals⟩
    | some room =>
      rw [handleDisconnect_of_some_some hp hr]
      refine ⟨?_, ?_, h.ioVals⟩
      · show (((if sdel c room = [] then merase p.roomId s.rooms
            else mset p.roomId (sdel c room) s.rooms)).map Prod.fst).Nodup
        split
        · exact nodup_keys_merase _ h.roomsKeys
        · exact nodup_keys_mset _ h.roomsKeys
      · intro r' l' hl'
        show l'.Nodup ∧ l' ≠ []
        by_cases hempty : sdel c room = []
        · rw [if_pos hempty] at hl'
          by_cases hr' : r' = p.roomId
          · subst hr'
            rw [mfind_merase_self] at hl'
            cases hl'
          · rw [mfind_merase_ne _ hr'] at hl'
            exact h.roomsVals r' l' hl'
        · rw [if_neg hempty] at hl'
          by_cases hr' : r' = p.roomId
          · subst hr'
            rw [mfind_mset_self] at hl'
            simp only [Option.some.injEq] at hl'
            subst hl'
            exact ⟨nodup_sdel c (h.roomsVals _ _ hr).1, hempty⟩
          · rw [mfind_mset_ne _ _ hr'] at hl'
            exact h.roomsVals r' l' hl'

theorem wf_step {s : ServerState} (e : Event) (h : WF s) : WF ((step s e).1) := by
  cases e with
  | joinRoom c r u => exact wf_joinRoom c r u h
  | leaveRoom c => exact wf_handleDisconnect c h
  | disconnect c =>
    have hd := wf_handleDisconnect c h
    refine ⟨hd.roomsKeys, hd.roomsVals, ?_⟩
    intro r l hl
    show l.Nodup
    rw [show ((step s (Event.disconnect c)).1).ioRooms
        = stripIo c ((handleDisconnect s c).1).ioRooms from rfl, mfind_stripIo] at hl
    cases hm : mfind r ((handleDisconnect s c).1).ioRooms with
    | some l0 =>
      rw [hm] at hl
      have hl2 : sdel c l0 = l := by simpa using hl
      subst hl2
      exact nodup_sdel c (hd.ioVals r l0 hm)
    | none =>
      rw [hm] at hl
      cases hl
  | offer c payload toId =>
    cases hp : mfind c s.peers <;> simpa [step, hp] using h
  | answer c payload toId =>
    cases hp : mfind c s.peers <;> simpa [step, hp] using h
  | iceCandidate c payload toId => exact h
  | startScreenShare c r =>
    cases hp : mfind c s.peers <;> simpa [step, hp] using h
  | stopScreenShare c r =>
    cases hp : mfind c s.peers <;> simpa [step, hp] using h

theorem wf_runFrom {s : ServerState} (evs : List Event) (h : WF s) :
    WF (runFrom s evs) := by
  induction evs generalizing s with
  | nil => exact h
  | cons e es ih => exact ih (wf_step e h)

theorem wf_run (evs : List Event) : WF (run evs) := wf_runFrom evs wf_init

/-! ### Projection lemmas and the adapter-room invariant -/

theorem joinRoom_peers (s : ServerState) (c r u : String) :
    ((joinRoom s c r u).1).peers = mset c ⟨c, u, r⟩ s.peers := by
  rw [joinRoom_eq]

theorem joinRoom_ioRooms (s : ServerState) (c r u : String) :
    ((joinRoom s c r u).1).ioRooms = mset r (sadd c (ioMembersOf s r)) s.ioRooms := by
  rw [joinRoom_eq]

theorem joinRoom_rooms (s : ServerState) (c r u : String) :
    ((joinRoom s c r u).1).rooms = mset r (sadd c (membersOf s r))
      (if (mfind r s.rooms).isSome then s.rooms else mset r [] s.rooms) := by
  rw [joinRoom_eq]

theorem joinRoom_msgs (s : ServerState) (c r u : String) :
    (joinRoom s c r u).2 = joinMsgs (mset c ⟨c, u, r⟩ s.peers) c u (membersOf s r) := by
  rw [joinRoom_eq]

theorem joinRoom_rooms_self (s : ServerState) (c r u : String) :
    mfind r ((joinRoom s c r u).1).rooms = some (sadd c (membersOf s r)) := by
  rw [joinRoom_rooms]
  exact mfind_mset_self _ _ _

theorem joinRoom_rooms_ne (s : ServerState) (c r u : String) {r' : String} (h : r' ≠ r) :
    mfind r' ((joinRoom s c r u).1).rooms = mfind r' s.rooms := by
  rw [joinRoom_rooms, mfind_mset_ne _ _ h]
  split
  · rfl
  · exact mfind_mset_ne _ _ h

theorem ioInv_init : IoInv initState := by
  intro c p hp
  simp [initState, mfind] at hp

theorem ioInv_joinRoom {s : ServerState} (c r u : String) (h : IoInv s) :
    IoInv ((joinRoom s c r u).1) := by
  intro c' p' hp'
  rw [joinRoom_peers] at hp'
  unfold ioMembersOf
  rw [joinRoom_ioRooms]
  by_cases hc : c' = c
  · subst hc
    rw [mfind_mset_self] at hp'
    have hp2 : (⟨c', u, r⟩ : PeerInfo) = p' := by injection hp'
    subst hp2
    rw [mfind_mset_self]
    exact mem_sadd.mpr (Or.inr rfl)
  · rw [mfind_mset_ne _ _ hc] at hp'
    have hmem := h c' p' hp'
    by_cases hr0 : p'.roomId = r
    · rw [hr0, mfind_mset_self]
      rw [hr0] at hmem
      exact mem_sadd.mpr (Or.inl hmem)
    · rw [mfind_mset_ne _ _ hr0]
      exact hmem

theorem ioInv_handleDisconnect {s : ServerState} (c : String) (h : IoInv s) :
    IoInv ((handleDisconnect s c).1) := by
  intro c' p' hp'
  rw [handleDisconnect_peers] at hp'
  by_cases hc : c' = c
  · subst hc
    rw [mfind_merase_self] at hp'
    cases hp'
  · rw [mfind_merase_ne _ hc] at hp'
    have hmem := h c' p' hp'
    unfold ioMembersOf
    rw [handleDisconnect_ioRooms]
    exact hmem

theorem ioInv_step {s : ServerState} (e : Event) (h : IoInv s) : IoInv ((step s e).1) := by
  cases e with
  | joinRoom c r u => exact ioInv_joinRoom c r u h
  | leaveRoom c => exact ioInv_handleDisconnect c h
  | disconnect c =>
    intro c' p' hp'
    have hp2 : mfind c' (merase c s.peers) = some p' := by
      rw [← handleDisconnect_peers]
      exact hp'
    by_cases hc : c' = c
    · subst hc
      rw [mfind_merase_self] at hp2
      cases hp2
    · rw [mfind_merase_ne _ hc] at hp2
      have hmem := h c' p' hp2
      unfold ioMembersOf
      rw [show ((step s (Event.disconnect c)).1).ioRooms
          = stripIo c ((handleDisconnect s c).1).ioRooms from rfl,
        handleDisconnect_ioRooms, mfind_stripIo]
      unfold ioMembersOf at hmem
      cases hm : mfind p'.roomId s.ioRooms with
      | none =>
        rw [hm] at hmem
        simp at hmem
      | some l0 =>
        rw [hm] at hmem
        have hg : ((some l0).map (sdel c)).getD ([] : List String) = sdel c l0 := rfl
        rw [hg]
        exact mem_sdel.mpr ⟨by simpa using hmem, hc⟩
  | offer c payload toId =>
    cases hp : mfind c s.peers <;> simpa [step, hp] using h
  | answer c payload toId =>
    cases hp : mfind c s.peers <;> simpa [step, hp] using h
  | iceCandidate c payload toId => exact h
  | startScreenShare c r =>
    cases hp : mfind c s.peers <;> simpa [step, hp] using h
  | stopScreenShare c r =>
    cases hp : mfind c s.peers <;> simpa [step, hp] using h

theorem ioInv_runFrom {s : ServerState} (evs : List Event) (h : IoInv s) :
    IoInv (runFrom s evs) := by
  induction evs generalizing s with
  | nil => exact h
  | cons e es ih => exact ih (ioInv_step e h)

theorem ioInv_run (evs : List Event) : IoInv (run evs) := ioInv_runFrom evs ioInv_init

/-! ### Mutual consistency under the no-re-join discipline -/

theorem consistent_init : Consistent initState := by
  constructor
  · intro c p hp
    simp [initState, mfind] at hp
  · intro r l hl
    simp [initState, mfind] at hl

theorem consistent_joinRoom {s : ServerState} (c r u : String)
    (hc : mfind c s.peers = none) (h : Consistent s) :
    Consistent ((joinRoom s c r u).1) := by
  obtain ⟨hfwd, hrev⟩ := h
  constructor
  · intro c' p' hp'
    rw [joinRoom_peers] at hp'
    unfold membersOf
    by_cases hcc : c' = c
    · subst hcc
      rw [mfind_mset_self] at hp'
      have hpp : (⟨c', u, r⟩ : PeerInfo) = p' := by injection hp'
      subst hpp
      show c' ∈ (mfind r ((joinRoom s c' r u).1).rooms).getD []
      rw [joinRoom_rooms_self]
      simp only [Option.getD_some]
      exact mem_sadd.mpr (Or.inr rfl)
    · rw [mfind_mset_ne _ _ hcc] at hp'
      have hmem := hfwd c' p' hp'
      unfold membersOf at hmem
      by_cases hr0 : p'.roomId = r
      · rw [hr0] at hmem ⊢
        rw [joinRoom_rooms_self]
        simp only [Option.getD_some]
        exact mem_sadd.mpr (Or.inl hmem)
      · rw [joinRoom_rooms_ne s c r u hr0]
        exact hmem
  · intro r' l' hl' x hx
    by_cases hrr : r' = r
    · subst hrr
      rw [joinRoom_rooms_self] at hl'
      have hll : sadd c (membersOf s r') = l' := by injection hl'
      subst hll
      rcases mem_sadd.mp hx with hx0 | rfl
      · unfold membersOf at hx0
        cases hm : mfind r' s.rooms with
        | none =>
          rw [hm] at hx0
          simp at hx0
        | some l0 =>
          rw [hm] at hx0
          simp only [Option.getD_some] at hx0
          obtain ⟨p0, hp0, hp0r⟩ := hrev r' l0 hm x hx0
          have hxc : x ≠ c := by
            rintro rfl
            rw [hc] at hp0
            cases hp0
          refine ⟨p0, ?_, hp0r⟩
          rw [joinRoom_peers, mfind_mset_ne _ _ hxc]
          exact hp0
      · refine ⟨⟨x, u, r'⟩, ?_, rfl⟩
        rw [joinRoom_peers]
        exact mfind_mset_self _ _ _
    · rw [joinRoom_rooms_ne s c r u hrr] at hl'
      obtain ⟨p0, hp0, hp0r⟩ := hrev r' l' hl' x hx
      have hxc : x ≠ c := by
        rintro rfl
        rw [hc] at hp0
        cases hp0
      refine ⟨p0, ?_, hp0r⟩
      rw [joinRoom_peers, mfind_mset_ne _ _ hxc]
      exact hp0

theorem consistent_handleDisconnect {s : ServerState} (c : String) (h : Consistent s) :
    Consistent ((handleDisconnect s c).1) := by
  cases hp : mfind c s.peers with
  | none =>
    rw [handleDisconnect_of_none hp]
    exact h
  | some p =>
    cases hr : mfind p.roomId s.rooms with
    | none =>
      rw [handleDisconnect_of_some_none hp hr]
      constructor
      · intro c' p' hp'
        have hp2 : mfind c' (merase c s.peers) = some p' := hp'
        by_cases hcc : c' = c
        · subst hcc
          rw [mfind_merase_self] at hp2
          cases hp2
        · rw [mfind_merase_ne _ hcc] at hp2
          exact h.1 c' p' hp2
      · intro r' l' hl' x hx
        have hl2 : mfind r' s.rooms = some l' := hl'
        obtain ⟨p0, hp0, hp0r⟩ := h.2 r' l' hl2 x hx
        have hxc : x ≠ c := by
          rintro rfl
          rw [hp] at hp0
          have hpp : p = p0 := by injection hp0
          rw [← hpp] at hp0r
          rw [← hp0r] at hl2
          rw [hr] at hl2
          cases hl2
        refine ⟨p0, ?_, hp0r⟩
        show mfind x (merase c s.peers) = some p0
        rw [mfind_merase_ne _ hxc]
        exact hp0
    | some room =>
      rw [handleDisconnect_of_some_some hp hr]
      constructor
      · intro c' p' hp'
        have hp2 : mfind c' (merase c s.peers) = some p' := hp'
        by_cases hcc : c' = c
        · subst hcc
          rw [mfind_merase_self] at hp2
          cases hp2
        · rw [mfind_merase_ne _ hcc] at hp2
          have hmem := h.1 c' p' hp2
          unfold membersOf at hmem
          show c' ∈ (mfind p'.roomId
            (if sdel c room = [] then merase p.roomId s.rooms
             else mset p.roomId (sdel c room) s.rooms)).getD []
          by_cases hr0 : p'.roomId = p.roomId
          · rw [hr0] at hmem ⊢
            rw [hr] at hmem
            simp only [Option.getD_some] at hmem
            have hmem2 : c' ∈ sdel c room := mem_sdel.mpr ⟨hmem, hcc⟩
            rw [if_neg (List.ne_nil_of_mem hmem2), mfind_mset_self]
            simpa using hmem2
          · split
            · rw [mfind_merase_ne _ hr0]
              exact hmem
            · rw [mfind_mset_ne _ _ hr0]
              exact hmem
      · intro r' l' hl' x hx
        have hl2 : mfind r'
            (if sdel c room = [] then merase p.roomId s.rooms
             else mset p.roomId (sdel c room) s.rooms) = some l' := hl'
        by_cases hr0 : r' = p.roomId
        · subst hr0
          by_cases hempty : sdel c room = []
          · rw [if_pos hempty, mfind_merase_self] at hl2
            cases hl2
          · rw [if_neg hempty, mfind_mset_self] at hl2
            have hll : sdel c room = l' := by injection hl2
            subst hll
            obtain ⟨hx0, hxc⟩ := mem_sdel.mp hx
            obtain ⟨p0, hp0, hp0r⟩ := h.2 _ room hr x hx0
            refine ⟨p0, ?_, hp0r⟩
            show mfind x (merase c s.peers) = some p0
            rw [mfind_merase_ne _ hxc]
            exact hp0
        · have hl3 : mfind r' s.rooms = some l' := by
            by_cases hempty : sdel c room = []
            · rw [if_pos hempty, mfind_merase_ne _ hr0] at hl2
              exact hl2
            · rw [if_neg hempty, mfind_mset_ne _ _ hr0] at hl2
              exact hl2
          obtain ⟨p0, hp0, hp0r⟩ := h.2 r' l' hl3 x hx
          have hxc : x ≠ c := by
            rintro rfl
            rw [hp] at hp0
            have hpp : p = p0 := by injection hp0
            rw [← hpp] at hp0r
            exact hr0 hp0r.symm
          refine ⟨p0, ?_, hp0r⟩
          show mfind x (merase c s.peers) = some p0
          rw [mfind_merase_ne _ hxc]
          exact hp0

theorem consistent_step {s : ServerState} {e : Event} (h : Consistent s)
    (hj : ∀ c r u, e = Event.joinRoom c r u → mfind c s.peers = none) :
    Consistent ((step s e).1) := by
  cases e with
  | joinRoom c r u => exact consistent_joinRoom c r u (hj c r u rfl) h
  | leaveRoom c => exact consistent_handleDisconnect c h
  | disconnect c =>
    have hd := consistent_handleDisconnect c h
    exact ⟨hd.1, hd.2⟩
  | offer c payload toId =>
    cases hp : mfind c s.peers <;> simpa [step, hp] using h
  | answer c payload toId =>
    cases hp : mfind c s.peers <;> simpa [step, hp] using h
  | iceCandidate c payload toId => exact h
  | startScreenShare c r =>
    cases hp : mfind c s.peers <;> simpa [step, hp] using h
  | stopScreenShare c r =>
    cases hp : mfind c s.peers <;> simpa [step, hp] using h

theorem consistent_runFrom {s : ServerState} (evs : List Event) (h : Consistent s)
    (hd : disciplinedFrom s evs = true) : Consistent (runFrom s evs) := by
  induction evs generalizing s with
  | nil => exact h
  | cons e es ih =>
    rw [disciplinedFrom, Bool.and_eq_true] at hd
    refine ih (consistent_step h ?_) hd.2
    intro c r u he
    subst he
    simpa [joinOk, Option.isNone_iff_eq_none] using hd.1

/-! ### Further helper lemmas for the claim theorems -/

theorem eq_singleton_of_mem_iff {A : String} {l : List String}
    (hnd : l.Nodup) (h : ∀ x, x ∈ l ↔ x = A) : l = [A] := by
  cases l with
  | nil =>
    exact absurd ((h A).mpr rfl) (List.not_mem_nil A)
  | cons a rest =>
    have ha : a = A := (h a).mp (List.mem_cons_self a rest)
    subst ha
    simp only [List.nodup_cons] at hnd
    cases rest with
    | nil => rfl
    | cons b rest2 =>
      have hb : b = a := (h b).mp (List.mem_cons_of_mem a (List.mem_cons_self b rest2))
      subst hb
      exact absurd (List.mem_cons_self b rest2) hnd.1

theorem sadd_of_mem {x : String} {s : List String} (h : x ∈ s) : sadd x s = s :=
  if_pos h

theorem handleDisconnect_rooms_ne {s : ServerState} {c : String} {p : PeerInfo}
    (hp : mfind c s.peers = some p) {r' : String} (h : r' ≠ p.roomId) :
    mfind r' ((handleDisconnect s c).1).rooms = mfind r' s.rooms := by
  cases hr : mfind p.roomId s.rooms with
  | none => rw [handleDisconnect_of_some_none hp hr]
  | some room =>
    rw [handleDisconnect_of_some_some hp hr]
    show mfind r' (if sdel c room = [] then merase p.roomId s.rooms
      else mset p.roomId (sdel c room) s.rooms) = mfind r' s.rooms
    split
    · exact mfind_merase_ne _ h
    · exact mfind_mset_ne _ _ h

theorem mem_joinMsgs_of {peers1 : Table PeerInfo} {c u pid : String} {p : PeerInfo}
    {room : List String} (hpid : pid ∈ room) (hp : mfind pid peers1 = some p) :
    (⟨c, Msg.userConnected pid p.username⟩ : Send) ∈ joinMsgs peers1 c u room := by
  induction room with
  | nil => cases hpid
  | cons a rest ih =>
    show _ ∈ (match mfind a peers1 with
      | some q => [⟨c, Msg.userConnected a q.username⟩, ⟨a, Msg.userConnected c u⟩]
      | none => []) ++ joinMsgs peers1 c u rest
    rcases List.mem_cons.mp hpid with rfl | hmem
    · rw [hp]
      exact List.mem_append_left _ (List.mem_cons_self _ _)
    · exact List.mem_append_right _ (ih hmem)

theorem joinMsgs_pair {peers1 : Table PeerInfo} {c u pid : String} {p : PeerInfo}
    (hp : mfind pid peers1 = some p) :
    joinMsgs peers1 c u [pid] =
      [⟨c, Msg.userConnected pid p.username⟩, ⟨pid, Msg.userConnected c u⟩] := by
  show (match mfind pid peers1 with
    | some q => [⟨c, Msg.userConnected pid q.username⟩, ⟨pid, Msg.userConnected c u⟩]
    | none => []) ++ joinMsgs peers1 c u [] = _
  rw [hp]
  rfl

theorem filter_eq_singleton {B : String} {l : List String}
    (hnd : l.Nodup) (hB : B ∈ l) : l.filter (fun x => decide (x = B)) = [B] := by
  induction l with
  | nil => cases hB
  | cons a rest ih =>
    simp only [List.nodup_cons] at hnd
    by_cases ha : a = B
    · subst ha
      simp only [List.filter_cons, decide_True, if_true]
      rw [List.filter_eq_nil_iff.mpr]
      intro x hx
      simp only [decide_eq_true_eq]
      rintro rfl
      exact hnd.1 hx
    · simp only [List.filter_cons, ha, decide_False]
      have hB' : B ∈ rest := by
        rcases List.mem_cons.mp hB with rfl | h
        · exact absurd rfl ha
        · exact h
      exact ih hnd.2 hB'

theorem filter_target_sockTo {s : ServerState} {r c B : String} {m : Msg}
    (hnd : (ioMembersOf s r).Nodup) (hB : B ∈ ioMembersOf s r) (hBc : B ≠ c) :
    (sockTo s r c m).filter (fun x => decide (x.target = B)) = [⟨B, m⟩] := by
  unfold sockTo
  rw [List.filter_map]
  have hcomp : ((fun x : Send => decide (x.target = B)) ∘ (fun x => (⟨x, m⟩ : Send)))
      = fun x => decide (x = B) := rfl
  rw [hcomp]
  have hmem : B ∈ sdel c (ioMembersOf s r) := mem_sdel.mpr ⟨hB, hBc⟩
  rw [filter_eq_singleton (nodup_sdel c hnd) hmem]
  rfl

/-! ### Claim theorems -/

/-- C1 (counterexample): the mutual-consistency invariant as stated is false:
after `join-room c r1` followed by `join-room c r2` (no leave in between) the
reachable state has `c` in room `r1`'s member set while `c`'s only peer
record names `r2`. -/
theorem claim_C1_counterexample :
    ¬ Consistent (run [Event.joinRoom "c" "r1" "n", Event.joinRoom "c" "r2" "n"]) := by
  intro h
  obtain ⟨p, hp, hr⟩ :=
    h.2 "r1" ["c"] (by decide) "c" (List.mem_singleton.mpr rfl)
  have hfind : mfind "c" (run [Event.joinRoom "c" "r1" "n",
      Event.joinRoom "c" "r2" "n"]).peers = some ⟨"c", "n", "r2"⟩ := by decide
  rw [hfind] at hp
  have hpp : (⟨"c", "n", "r2"⟩ : PeerInfo) = p := by injection hp
  rw [← hpp] at hr
  exact absurd hr (by decide)

/-- C1 (amended): registry mutual consistency holds in every state reachable
by a trace in which no connection issues `join-room` while it still has a
peer record (no re-join while joined); a second join of a joined connection
can break the member-set-to-peer-record direction. -/
theorem claim_C1 (evs : List Event)
    (hd : disciplinedFrom initState evs = true) : Consistent (run evs) :=
  consistent_runFrom evs consistent_init hd

/-- Witness for C1: a concrete disciplined trace. -/
theorem claim_C1_witness :
    disciplinedFrom initState [Event.joinRoom "a" "r" "n", Event.joinRoom "b" "r" "m",
      Event.disconnect "a"] = true
    ∧ Consistent (run [Event.joinRoom "a" "r" "n", Event.joinRoom "b" "r" "m",
      Event.disconnect "a"]) :=
  ⟨by decide, claim_C1 _ (by decide)⟩

/-- C2 (counterexample): the claim that the ghost membership is cleared by the
connection's disconnect is false: after `join c r1; join c r2; disconnect c`
the id `c` is still in `r1`'s member set even though its peer record is gone. -/
theorem claim_C2_counterexample :
    "c" ∈ membersOf (run [Event.joinRoom "c" "r1" "n", Event.joinRoom "c" "r2" "n",
      Event.disconnect "c"]) "r1"
    ∧ mfind "c" (run [Event.joinRoom "c" "r1" "n", Event.joinRoom "c" "r2" "n",
      Event.disconnect "c"]).peers = none := by
  constructor
  · decide
  · decide

/-- C2 (amended): the ghost membership in the earlier room `r1` persists even
through disconnect: `handleDisconnect` removes the connection only from the
room named by its current peer record, so when that record names a different
room, `r1`'s member-set entry survives while the peer record is deleted. -/
theorem claim_C2 (s : ServerState) (c r1 : String) (p : PeerInfo)
    (hp : mfind c s.peers = some p) (hne : r1 ≠ p.roomId)
    (hmem : c ∈ membersOf s r1) :
    c ∈ membersOf ((step s (Event.disconnect c)).1) r1
    ∧ mfind c ((step s (Event.disconnect c)).1).peers = none := by
  constructor
  · unfold membersOf at hmem ⊢
    rw [show ((step s (Event.disconnect c)).1).rooms
        = ((handleDisconnect s c).1).rooms from rfl]
    rw [handleDisconnect_rooms_ne hp hne]
    exact hmem
  · rw [show ((step s (Event.disconnect c)).1).peers
        = ((handleDisconnect s c).1).peers from rfl]
    rw [handleDisconnect_peers]
    exact mfind_merase_self c s.peers

/-- Witness for C2 at a concrete double-join state. -/
theorem claim_C2_witness :
    "c" ∈ membersOf ((step (run [Event.joinRoom "c" "r1" "n",
      Event.joinRoom "c" "r2" "n"]) (Event.disconnect "c")).1) "r1"
    ∧ mfind "c" ((step (run [Event.joinRoom "c" "r1" "n",
      Event.joinRoom "c" "r2" "n"]) (Event.disconnect "c")).1).peers = none :=
  claim_C2 _ "c" "r1" ⟨"c", "n", "r2"⟩ (by decide) (by decide) (by decide)

/-- C3: in every reachable state, a roomId is a key of the rooms registry iff
its member set is non-empty: join never leaves an empty room behind and a
removal that empties a room deletes the room in the same handler. -/
theorem claim_C3 (evs : List Event) (r : String) :
    (mfind r (run evs).rooms).isSome = true ↔ membersOf (run evs) r ≠ [] := by
  have h := wf_run evs
  constructor
  · intro hs
    obtain ⟨l, hl⟩ := Option.isSome_iff_exists.mp hs
    have hne := (h.roomsVals r l hl).2
    unfold membersOf
    rw [hl]
    simpa using hne
  · intro hne
    unfold membersOf at hne
    cases hm : mfind r (run evs).rooms with
    | none =>
      rw [hm] at hne
      simp at hne
    | some l => simp

/-- Witness for C3 at a concrete trace and room. -/
theorem claim_C3_witness :
    (mfind "r" (run [Event.joinRoom "a" "r" "n"]).rooms).isSome = true
    ↔ membersOf (run [Event.joinRoom "a" "r" "n"]) "r" ≠ [] :=
  claim_C3 [Event.joinRoom "a" "r" "n"] "r"

/-- C4: join broadcasts.  If room `r1` of a reachable state contains exactly
peer `A` (with a peer record) and a fresh connection `B ≠ A` joins `r1`, the
handler emits exactly one `user-connected` to `B` with `A`'s id and name and
exactly one `user-connected` to `A` with `B`'s id and name, and nothing to
anyone else; if the room was empty or absent, nothing is emitted at all. -/
theorem claim_C4 :
    (∀ (evs : List Event) (r1 A B uB : String) (l : List String) (pA : PeerInfo),
      mfind r1 (run evs).rooms = some l → (∀ x, x ∈ l ↔ x = A) →
      mfind A (run evs).peers = some pA → B ≠ A →
      (step (run evs) (Event.joinRoom B r1 uB)).2 =
        [⟨B, Msg.userConnected A pA.username⟩, ⟨A, Msg.userConnected B uB⟩])
    ∧ (∀ (s : ServerState) (r1 B uB : String),
      membersOf s r1 = [] → (step s (Event.joinRoom B r1 uB)).2 = []) := by
  constructor
  · intro evs r1 A B uB l pA hl hxa hA hBA
    have hnd := ((wf_run evs).roomsVals r1 l hl).1
    have hlA : l = [A] := eq_singleton_of_mem_iff hnd hxa
    show (joinRoom (run evs) B r1 uB).2 = _
    rw [joinRoom_msgs]
    have hm : membersOf (run evs) r1 = [A] := by
      unfold membersOf
      rw [hl, hlA]
      rfl
    rw [hm]
    exact joinMsgs_pair
      (by rw [mfind_mset_ne _ _ (fun h : A = B => hBA h.symm)]; exact hA)
  · intro s r1 B uB hempty
    show (joinRoom s B r1 uB).2 = []
    rw [joinRoom_msgs, hempty]
    rfl

/-- Witness for C4 at a concrete two-peer join and an empty-room join. -/
theorem claim_C4_witness :
    (step (run [Event.joinRoom "a" "r1" "ua"]) (Event.joinRoom "b" "r1" "ub")).2 =
      [⟨"b", Msg.userConnected "a" "ua"⟩, ⟨"a", Msg.userConnected "b" "ub"⟩]
    ∧ (step initState (Event.joinRoom "b" "r2" "ub")).2 = [] :=
  ⟨claim_C4.1 [Event.joinRoom "a" "r1" "ua"] "r1" "a" "b" "ub" ["a"] ⟨"a", "ua", "r1"⟩
      (by decide) (fun x => List.mem_singleton) (by decide) (by decide),
    claim_C4.2 initState "r2" "b" "ub" (by decide)⟩

/-- C5: leave broadcasts and room teardown.  If `A` and `B` (both with peer
records naming `r1`) are the only members of `r1` in a reachable state, then
on `A`'s disconnect `B` receives exactly one `user-disconnected` with id `A`
and `r1` afterwards contains exactly `B`; and if `A` is alone in `r2`, then
on `A`'s leave the room `r2` is deleted and the room count drops by one. -/
theorem claim_C5 :
    (∀ (evs : List Event) (r1 A B : String) (l : List String) (pA pB : PeerInfo),
      mfind r1 (run evs).rooms = some l → (∀ x, x ∈ l ↔ x = A ∨ x = B) → A ≠ B →
      mfind A (run evs).peers = some pA → pA.roomId = r1 →
      mfind B (run evs).peers = some pB → pB.roomId = r1 →
      ((step (run evs) (Event.disconnect A)).2.filter
          (fun m => decide (m.target = B)) = [⟨B, Msg.userDisconnected A⟩])
      ∧ (∀ x, x ∈ membersOf ((step (run evs) (Event.disconnect A)).1) r1 ↔ x = B))
    ∧ (∀ (evs : List Event) (r2 A : String) (l : List String) (pA : PeerInfo),
      mfind r2 (run evs).rooms = some l → (∀ x, x ∈ l ↔ x = A) →
      mfind A (run evs).peers = some pA → pA.roomId = r2 →
      mfind r2 ((step (run evs) (Event.leaveRoom A)).1).rooms = none
      ∧ roomCount ((step (run evs) (Event.leaveRoom A)).1) + 1
          = roomCount (run evs)) := by
  constructor
  · intro evs r1 A B l pA pB hl hx hAB hA hAr hB hBr
    have hw := wf_run evs
    have hio := ioInv_run evs
    have hrA : mfind pA.roomId (run evs).rooms = some l := by
      rw [hAr]
      exact hl
    have hdis := handleDisconnect_of_some_some hA hrA
    have hBl : B ∈ l := (hx B).mpr (Or.inr rfl)
    have hBsd : B ∈ sdel A l := mem_sdel.mpr ⟨hBl, Ne.symm hAB⟩
    have hne : sdel A l ≠ [] := List.ne_nil_of_mem hBsd
    constructor
    · rw [show (step (run evs) (Event.disconnect A)).2
          = (handleDisconnect (run evs) A).2 from rfl, hdis]
      show (sockTo (run evs) pA.roomId A (Msg.userDisconnected A)).filter
        (fun m => decide (m.target = B)) = [⟨B, Msg.userDisconnected A⟩]
      refine filter_target_sockTo (nodup_ioMembersOf hw _) ?_ (Ne.symm hAB)
      have hmem := hio B pB hB
      rw [hBr] at hmem
      rw [hAr]
      exact hmem
    · intro x
      unfold membersOf
      rw [show ((step (run evs) (Event.disconnect A)).1).rooms
          = ((handleDisconnect (run evs) A).1).rooms from rfl, hdis]
      show x ∈ (mfind r1 (if sdel A l = [] then merase pA.roomId (run evs).rooms
        else mset pA.roomId (sdel A l) (run evs).rooms)).getD [] ↔ x = B
      rw [if_neg hne, ← hAr, mfind_mset_self]
      simp only [Option.getD_some]
      constructor
      · intro hxm
        obtain ⟨hxl, hxA⟩ := mem_sdel.mp hxm
        rcases (hx x).mp hxl with rfl | rfl
        · exact absurd rfl hxA
        · rfl
      · rintro rfl
        exact hBsd
  · intro evs r2 A l pA hl hx hA hAr
    have hw := wf_run evs
    have hnd := (hw.roomsVals r2 l hl).1
    have hlA : l = [A] := eq_singleton_of_mem_iff hnd hx
    have hrA : mfind pA.roomId (run evs).rooms = some l := by
      rw [hAr]
      exact hl
    have hdis := handleDisconnect_of_some_some hA hrA
    have hsd : sdel A l = [] := by
      rw [hlA]
      simp [sdel]
    constructor
    · rw [show ((step (run evs) (Event.leaveRoom A)).1)
          = ((handleDisconnect (run evs) A).1) from rfl, hdis]
      show mfind r2 (if sdel A l = [] then merase pA.roomId (run evs).rooms
        else mset pA.roomId (sdel A l) (run evs).rooms) = none
      rw [if_pos hsd, ← hAr]
      exact mfind_merase_self _ _
    · unfold roomCount
      rw [show ((step (run evs) (Event.leaveRoom A)).1)
          = ((handleDisconnect (run evs) A).1) from rfl, hdis]
      show (if sdel A l = [] then merase pA.roomId (run evs).rooms
        else mset pA.roomId (sdel A l) (run evs).rooms).length + 1
        = (run evs).rooms.length
      rw [if_pos hsd]
      exact (length_merase hw.roomsKeys hrA).symm

/-- Witness for C5 at concrete two-peer and single-peer rooms. -/
theorem claim_C5_witness :
    ((step (run [Event.joinRoom "a" "r1" "ua", Event.joinRoom "b" "r1" "ub"])
        (Event.disconnect "a")).2.filter (fun m => decide (m.target = "b"))
      = [⟨"b", Msg.userDisconnected "a"⟩])
    ∧ (∀ x, x ∈ membersOf ((step (run [Event.joinRoom "a" "r1" "ua",
        Event.joinRoom "b" "r1" "ub"]) (Event.disconnect "a")).1) "r1" ↔ x = "b")
    ∧ mfind "r2" ((step (run [Event.joinRoom "a" "r2" "ua"])
        (Event.leaveRoom "a")).1).rooms = none
    ∧ roomCount ((step (run [Event.joinRoom "a" "r2" "ua"])
        (Event.leaveRoom "a")).1) + 1 = roomCount (run [Event.joinRoom "a" "r2" "ua"]) := by
  have h1 := claim_C5.1 [Event.joinRoom "a" "r1" "ua", Event.joinRoom "b" "r1" "ub"]
    "r1" "a" "b" ["a", "b"] ⟨"a", "ua", "r1"⟩ ⟨"b", "ub", "r1"⟩
    (by decide) (by intro x; simp) (by decide) (by decide) (by decide) (by decide) (by decide)
  have h2 := claim_C5.2 [Event.joinRoom "a" "r2" "ua"] "r2" "a" ["a"] ⟨"a", "ua", "r2"⟩
    (by decide) (by intro x; simp) (by decide) (by decide)
  exact ⟨h1.1, h1.2, h2.1, h2.2⟩

/-- C6: offer/answer relay.  A sender with a peer record causes exactly one
`offer` (resp. `answer`) message to the addressee carrying the payload, the
sender id and the sender's display name, with no state change; a sender with
no peer record causes no message and no state change. -/
theorem claim_C6 :
    (∀ (s : ServerState) (A : String) (pA : PeerInfo) (payload toId : String),
      mfind A s.peers = some pA →
      step s (Event.offer A payload toId)
          = (s, [⟨toId, Msg.offer payload A pA.username⟩])
      ∧ step s (Event.answer A payload toId)
          = (s, [⟨toId, Msg.answer payload A pA.username⟩]))
    ∧ (∀ (s : ServerState) (A payload toId : String),
      mfind A s.peers = none →
      step s (Event.offer A payload toId) = (s, [])
      ∧ step s (Event.answer A payload toId) = (s, [])) := by
  constructor
  · intro s A pA payload toId h
    constructor <;> simp [step, h]
  · intro s A payload toId h
    constructor <;> simp [step, h]

/-- Witness for C6 with a registered and an unregistered sender. -/
theorem claim_C6_witness :
    step (run [Event.joinRoom "a" "r" "ua"]) (Event.offer "a" "x" "b")
      = (run [Event.joinRoom "a" "r" "ua"], [⟨"b", Msg.offer "x" "a" "ua"⟩])
    ∧ step (run [Event.joinRoom "a" "r" "ua"]) (Event.offer "z" "x" "b")
      = (run [Event.joinRoom "a" "r" "ua"], []) :=
  ⟨(claim_C6.1 _ "a" ⟨"a", "ua", "r"⟩ "x" "b" (by decide)).1,
    (claim_C6.2 _ "z" "x" "b" (by decide)).1⟩

/-- C7: removal idempotence.  For every state and id, running
`handleDisconnect` twice yields the same state as running it once, and
removal of an id with no peer record changes nothing. -/
theorem claim_C7 : ∀ (s : ServerState) (c : String),
    (handleDisconnect ((handleDisconnect s c).1) c).1 = (handleDisconnect s c).1
    ∧ (mfind c s.peers = none → (handleDisconnect s c).1 = s) := by
  intro s c
  constructor
  · cases hp : mfind c s.peers with
    | none =>
      have h1 : (handleDisconnect s c).1 = s := by rw [handleDisconnect_of_none hp]
      rw [h1, handleDisconnect_of_none hp]
    | some p =>
      have h2 : mfind c ((handleDisconnect s c).1).peers = none := by
        rw [handleDisconnect_peers]
        exact mfind_merase_self c s.peers
      rw [handleDisconnect_of_none h2]
  · intro hp
    rw [handleDisconnect_of_none hp]

/-- Witness for C7 at a concrete no-record id. -/
theorem claim_C7_witness :
    mfind "z" initState.peers = none ∧ (handleDisconnect initState "z").1 = initState :=
  ⟨by decide, (claim_C7 initState "z").2 (by decide)⟩

/-- C8: the ice-candidate handler unconditionally emits exactly one message
`{candidate, from}` to the addressee, for any sender — registered or not —
and never changes any state. -/
theorem claim_C8 : ∀ (s : ServerState) (c payload toId : String),
    step s (Event.iceCandidate c payload toId)
      = (s, [⟨toId, Msg.iceCandidate payload c⟩]) := by
  intro s c payload toId
  rfl

/-- C9: re-joining the same room.  If `c` is already in room `r`'s member set
and issues `join-room` for `r` again, the rewritten peer record makes the
enumeration notify `c` about itself with the newly supplied name, and the
member set of `r` is unchanged. -/
theorem claim_C9 : ∀ (s : ServerState) (c r uNew : String) (l : List String),
    mfind r s.rooms = some l → c ∈ l →
    (⟨c, Msg.userConnected c uNew⟩ : Send) ∈ (step s (Event.joinRoom c r uNew)).2
    ∧ membersOf ((step s (Event.joinRoom c r uNew)).1) r = membersOf s r := by
  intro s c r uNew l hl hc
  have hmem : c ∈ membersOf s r := by
    unfold membersOf
    rw [hl]
    simpa using hc
  constructor
  · show _ ∈ (joinRoom s c r uNew).2
    rw [joinRoom_msgs]
    exact mem_joinMsgs_of hmem (mfind_mset_self _ _ _)
  · unfold membersOf
    rw [show ((step s (Event.joinRoom c r uNew)).1) = (joinRoom s c r uNew).1 from rfl,
      joinRoom_rooms_self, sadd_of_mem hmem]
    rfl

/-- Witness for C9 at a concrete same-room re-join. -/
theorem claim_C9_witness :
    (⟨"c", Msg.userConnected "c" "new"⟩ : Send)
      ∈ (step (run [Event.joinRoom "c" "r" "old"]) (Event.joinRoom "c" "r" "new")).2
    ∧ membersOf ((step (run [Event.joinRoom "c" "r" "old"])
        (Event.joinRoom "c" "r" "new")).1) "r"
      = membersOf (run [Event.joinRoom "c" "r" "old"]) "r" :=
  claim_C9 _ "c" "r" "new" ["c"] (by decide) (by decide)

/-- C10: frame condition of `handleDisconnect`.  It changes at most the peer
record of the disconnecting id and the member set of the single room that
record names (removing the id and deleting the room if emptied); all other
peer records and rooms — and the adapter rooms — are untouched, and with no
peer record the whole state is unchanged. -/
theorem claim_C10 : ∀ (s : ServerState) (c : String),
    (∀ c', c' ≠ c → mfind c' ((handleDisconnect s c).1).peers = mfind c' s.peers)
    ∧ ((handleDisconnect s c).1).ioRooms = s.ioRooms
    ∧ (mfind c s.peers = none → (handleDisconnect s c).1 = s)
    ∧ (∀ p, mfind c s.peers = some p →
        (∀ r', r' ≠ p.roomId →
          mfind r' ((handleDisconnect s c).1).rooms = mfind r' s.rooms)
        ∧ mfind c ((handleDisconnect s c).1).peers = none
        ∧ (∀ l, mfind p.roomId s.rooms = some l →
            mfind p.roomId ((handleDisconnect s c).1).rooms
              = if sdel c l = [] then none else some (sdel c l))
        ∧ (mfind p.roomId s.rooms = none →
            ((handleDisconnect s c).1).rooms = s.rooms)) := by
  intro s c
  refine ⟨?_, handleDisconnect_ioRooms s c, ?_, ?_⟩
  · intro c' hc'
    rw [handleDisconnect_peers]
    exact mfind_merase_ne _ hc'
  · intro hp
    rw [handleDisconnect_of_none hp]
  · intro p hp
    refine ⟨fun r' hr' => handleDisconnect_rooms_ne hp hr', ?_, ?_, ?_⟩
    · rw [handleDisconnect_peers]
      exact mfind_merase_self c s.peers
    · intro l hl
      rw [handleDisconnect_of_some_some hp hl]
      show mfind p.roomId (if sdel c l = [] then merase p.roomId s.rooms
        else mset p.roomId (sdel c l) s.rooms) = _
      by_cases hsd : sdel c l = []
      · rw [if_pos hsd, if_pos hsd]
        exact mfind_merase_self _ _
      · rw [if_neg hsd, if_neg hsd]
        exact mfind_mset_self _ _ _
    · intro hl
      rw [handleDisconnect_of_some_none hp hl]

/-- Witness for C10 at a concrete two-peer room. -/
theorem claim_C10_witness :
    mfind "a" (run [Event.joinRoom "a" "r" "ua", Event.joinRoom "b" "r" "ub"]).peers
      = some ⟨"a", "ua", "r"⟩
    ∧ mfind "r" ((handleDisconnect (run [Event.joinRoom "a" "r" "ua",
        Event.joinRoom "b" "r" "ub"]) "a").1).rooms
      = (if sdel "a" ["a", "b"] = [] then none else some (sdel "a" ["a", "b"])) :=
  ⟨by decide,
    ((claim_C10 (run [Event.joinRoom "a" "r" "ua", Event.joinRoom "b" "r" "ub"])
        "a").2.2.2 ⟨"a", "ua", "r"⟩ (by decide)).2.2.1 ["a", "b"] (by decide)⟩

end VideoServer
